import Mathlib

/-!
Verification of the `mem_remap` image scrambler core
(`src/image_scrambler/main.go` and its variant): the change tracker
(`offsetMemoryAddressing` with `modifyBytes` / `removeMemoryAddress`),
the Fisher–Yates index shuffle, permutation application and inversion.

Buffers (`[]byte` / `Pix` slices) are modelled as `List Nat`; byte offsets
(`int64`) as `Int`; the Go map `map[int64]byte` as an association list
`List (Int × Nat)` whose insertion discipline (insert only when absent)
keeps its keys distinct.  Go functions mutating a slice in place are
modelled as functions returning the updated state together with an
`Option MemError` for the `error` result: on error the returned state is
whatever the partially-executed Go code left behind.
-/

namespace MemRemap

/-- Errors returned by the tracker, mirroring the two `fmt.Errorf` cases
in the Go source. -/
inductive MemError where
  | emptyBuffer : MemError
  | outOfBounds : Int → MemError
deriving DecidableEq

/-- `offsetMemoryAddressing` tracks byte changes at specific memory
offsets (`offsets map[int64]byte` in the Go source), modelled as an
association list from offset to original byte. -/
structure offsetMemoryAddressing where
  offsets : List (Int × Nat)
deriving DecidableEq

/-- The loop body of `removeMemoryAddress`: for each tracked
`(offset, originalByte)` pair, fail if the offset is out of bounds,
otherwise write the original byte back.  On error the partially
restored buffer is returned, as the in-place Go code leaves it. -/
def restoreLoop : List (Int × Nat) → List Nat → Option MemError × List Nat
  | [], mem => (none, mem)
  | (offset, originalByte) :: rest, mem =>
    if offset < 0 ∨ (mem.length : Int) ≤ offset then
      (some (MemError.outOfBounds offset), mem)
    else
      restoreLoop rest (mem.set offset.toNat originalByte)

/-- `removeMemoryAddress` from the Go source: errors on an empty buffer,
replays every recorded original byte (failing on an out-of-bounds
offset), and on success resets the record to empty. -/
def removeMemoryAddress (o : offsetMemoryAddressing) (mem : List Nat) :
    Option MemError × offsetMemoryAddressing × List Nat :=
  if mem.length = 0 then
    (some MemError.emptyBuffer, o, mem)
  else
    match restoreLoop o.offsets mem with
    | (some e, mem2) => (some e, o, mem2)
    | (none, mem2) => (none, ⟨[]⟩, mem2)

/-- `modifyBytes` from the Go source: bounds-check the offset, store the
original byte if the offset is not already tracked, then write the new
value.  Map insertion is modelled by prepending the new pair (the Go map
is unordered; keys stay distinct because insertion happens only when the
key is absent). -/
def modifyBytes (o : offsetMemoryAddressing) (mem : List Nat) (offset : Int)
    (newValue : Nat) : Option MemError × offsetMemoryAddressing × List Nat :=
  if offset < 0 ∨ (mem.length : Int) ≤ offset then
    (some (MemError.outOfBounds offset), o, mem)
  else
    let o2 : offsetMemoryAddressing :=
      if (List.lookup offset o.offsets).isSome then o
      else ⟨(offset, mem.getD offset.toNat 0) :: o.offsets⟩
    (none, o2, mem.set offset.toNat newValue)

/-- Run a sequence of `modifyBytes` calls, returning the final tracker
and buffer when every call succeeds and `none` when any call fails. -/
def runWrites : offsetMemoryAddressing → List Nat → List (Int × Nat) →
    Option (offsetMemoryAddressing × List Nat)
  | o, mem, [] => some (o, mem)
  | o, mem, (off, v) :: rest =>
    match modifyBytes o mem off v with
    | (none, o2, mem2) => runWrites o2 mem2 rest
    | (some _, _, _) => none

/-- The parallel assignment `arr[i], arr[j] = arr[j], arr[i]` of the Go
shuffle loop. -/
def swapAt (arr : List Nat) (i j : Nat) : List Nat :=
  (arr.set i (arr.getD j 0)).set j (arr.getD i 0)

/-- The Fisher–Yates loop `for i := n-1; i > 0; i--` from the Go source:
at counter `i` swap position `i` with position `choice i` (the model of
`rand.Intn(i+1)`, constrained to `choice i ≤ i` in the theorems). -/
def fyLoop (choice : Nat → Nat) : Nat → List Nat → List Nat
  | 0, arr => arr
  | i + 1, arr => fyLoop choice i (swapAt arr (i + 1) (choice (i + 1)))

/-- Index-permutation generation from the Go source: initialise
`[0, …, n-1]` and shuffle it with the Fisher–Yates loop. -/
def generatePermutation (choice : Nat → Nat) (n : Nat) : List Nat :=
  fyLoop choice (n - 1) (List.range n)

/-- The scramble loop of the Go source: for every source position `i`,
write `buf[i]` into a freshly zero-initialised output buffer at position
`perm[i]` (`image.NewRGBA` yields a zeroed pixel buffer). -/
def applyPerm (buf : List Nat) (perm : List Nat) : List Nat :=
  (List.range buf.length).foldl
    (fun out i => out.set (perm.getD i 0) (buf.getD i 0))
    (List.replicate buf.length 0)

/-- The reverse-mapping construction `reverseShuffle[shuffledIdx] =
originalIdx` of the Go source: for every index `i`, write `i` into a
zero-initialised buffer at position `perm[i]`. -/
def invertPerm (perm : List Nat) : List Nat :=
  (List.range perm.length).foldl
    (fun inv i => inv.set (perm.getD i 0) i)
    (List.replicate perm.length 0)

/-! ### Generic list helpers -/

theorem getD_eq_getElem (l : List Nat) (i : Nat) (h : i < l.length) :
    l.getD i 0 = l[i] := by
  simp [List.getD_eq_getElem?_getD, List.getElem?_eq_getElem h]

theorem getD_set_self (l : List Nat) (i v : Nat) (h : i < l.length) :
    (l.set i v).getD i 0 = v := by
  have h2 : i < (l.set i v).length := by simpa using h
  rw [getD_eq_getElem _ _ h2, List.getElem_set_self]

theorem getD_set_ne (l : List Nat) (i j v : Nat) (h : i ≠ j) :
    (l.set i v).getD j 0 = l.getD j 0 := by
  by_cases hj : j < l.length
  · have h2 : j < (l.set i v).length := by simpa using hj
    rw [getD_eq_getElem _ _ h2, getD_eq_getElem _ _ hj, List.getElem_set_ne h]
  · have hj2 : ¬ j < (l.set i v).length := by simpa using hj
    rw [List.getD_eq_default, List.getD_eq_default] <;> omega

theorem eq_of_length_getD (l1 l2 : List Nat) (hlen : l1.length = l2.length)
    (h : ∀ j, j < l1.length → l1.getD j 0 = l2.getD j 0) : l1 = l2 := by
  apply List.ext_getElem hlen
  intro j h1 h2
  have := h j h1
  rwa [getD_eq_getElem _ _ h1, getD_eq_getElem _ _ h2] at this

theorem lookup_of_mem_of_nodup (l : List (Int × Nat)) (k : Int) (v : Nat)
    (h : (k, v) ∈ l) (hnd : (l.map Prod.fst).Nodup) : List.lookup k l = some v := by
  induction l with
  | nil => simp at h
  | cons a t ih =>
    simp only [List.map_cons, List.nodup_cons] at hnd
    rcases List.mem_cons.mp h with h | h
    · cases h; simp [List.lookup]
    · have hk : k ≠ a.1 := by
        rintro rfl
        exact hnd.1 (List.mem_map.mpr ⟨(a.1, v), h, rfl⟩)
      simp [List.lookup, beq_eq_false_iff_ne.2 hk, ih h hnd.2]

theorem lookup_eq_none_iff (l : List (Int × Nat)) (k : Int) :
    List.lookup k l = none ↔ ∀ v, (k, v) ∉ l := by
  constructor
  · intro h v hv
    induction l with
    | nil => simp at hv
    | cons a t ih =>
      rcases List.mem_cons.mp hv with h1 | h1
      · cases h1; simp [List.lookup] at h
      · by_cases hk : k == a.1
        · simp [List.lookup, hk] at h
        · simp only [List.lookup, hk] at h
          exact ih h h1
  · intro h
    induction l with
    | nil => rfl
    | cons a t ih =>
      by_cases hk : k == a.1
      · exfalso
        have hka : k = a.1 := by simpa using hk
        exact h a.2 (by rw [hka]; exact List.mem_cons_self a t)
      · simp only [List.lookup, hk]
        exact ih fun v hv => h v (List.mem_cons_of_mem _ hv)

theorem mem_of_lookup_eq_some (l : List (Int × Nat)) (k : Int) (v : Nat)
    (h : List.lookup k l = some v) : (k, v) ∈ l := by
  induction l with
  | nil => simp [List.lookup] at h
  | cons a t ih =>
    by_cases hk : k == a.1
    · have hka : k = a.1 := by simpa using hk
      simp only [List.lookup, hk] at h
      cases h
      rw [hka]
      exact List.mem_cons_self a t
    · simp only [List.lookup, hk] at h
      exact List.mem_cons_of_mem _ (ih h)

theorem lookup_eq_of_perm (l1 l2 : List (Int × Nat)) (k : Int)
    (hp : l1.Perm l2) (hnd : (l1.map Prod.fst).Nodup) :
    List.lookup k l1 = List.lookup k l2 := by
  have hnd2 : (l2.map Prod.fst).Nodup := ((hp.map Prod.fst).nodup_iff).mp hnd
  cases hlk : List.lookup k l1 with
  | none =>
    have h1 := (lookup_eq_none_iff l1 k).mp hlk
    have h2 : ∀ v, (k, v) ∉ l2 := fun v hv => h1 v (hp.mem_iff.mpr hv)
    exact ((lookup_eq_none_iff l2 k).mpr h2).symm
  | some v =>
    have h1 := mem_of_lookup_eq_some l1 k v hlk
    exact (lookup_of_mem_of_nodup l2 k v (hp.mem_iff.mp h1) hnd2).symm

/-! ### Characterisation of the restore loop -/

theorem restoreLoop_length (entries : List (Int × Nat)) (mem : List Nat) :
    (restoreLoop entries mem).2.length = mem.length := by
  induction entries generalizing mem with
  | nil => rfl
  | cons a rest ih =>
    obtain ⟨off, b⟩ := a
    simp only [restoreLoop]
    split
    · rfl
    · rw [ih]
      simp

theorem restoreLoop_fst_eq_none (entries : List (Int × Nat)) (mem : List Nat)
    (hb : ∀ e ∈ entries, 0 ≤ e.1 ∧ e.1 < (mem.length : Int)) :
    (restoreLoop entries mem).1 = none := by
  induction entries generalizing mem with
  | nil => rfl
  | cons a rest ih =>
    obtain ⟨off, b⟩ := a
    have hob := hb (off, b) (List.mem_cons_self _ _)
    simp only [restoreLoop]
    rw [if_neg (by omega)]
    apply ih
    intro e he
    have := hb e (List.mem_cons_of_mem _ he)
    simpa using this

theorem restoreLoop_getD (entries : List (Int × Nat)) (mem : List Nat) (j : Nat)
    (hnd : (entries.map Prod.fst).Nodup)
    (hb : ∀ e ∈ entries, 0 ≤ e.1 ∧ e.1 < (mem.length : Int))
    (hj : j < mem.length) :
    (restoreLoop entries mem).2.getD j 0 =
      (List.lookup (j : Int) entries).getD (mem.getD j 0) := by
  induction entries generalizing mem with
  | nil => rfl
  | cons a rest ih =>
    obtain ⟨off, b⟩ := a
    have hob := hb (off, b) (List.mem_cons_self _ _)
    simp only [List.map_cons, List.nodup_cons] at hnd
    simp only [restoreLoop]
    rw [if_neg (by omega)]
    have hbrest : ∀ e ∈ rest, 0 ≤ e.1 ∧ e.1 < ((mem.set off.toNat b).length : Int) := by
      intro e he
      have := hb e (List.mem_cons_of_mem _ he)
      simpa using this
    have hj2 : j < (mem.set off.toNat b).length := by simpa using hj
    rw [ih (mem.set off.toNat b) hnd.2 hbrest hj2]
    by_cases hoff : (j : Int) = off
    · have hnone : List.lookup (j : Int) rest = none := by
        rw [lookup_eq_none_iff]
        intro v hv
        apply hnd.1
        rw [← hoff]
        exact List.mem_map.mpr ⟨((j : Int), v), hv, rfl⟩
      have htn : off.toNat = j := by omega
      rw [hnone]
      simp only [Option.getD_none]
      rw [htn, getD_set_self _ _ _ hj]
      have hlk : List.lookup (j : Int) (((off, b)) :: rest) = some b := by
        simp [List.lookup, hoff]
      rw [hlk]
      rfl
    · have htn : off.toNat ≠ j := by omega
      rw [getD_set_ne _ _ _ _ htn]
      have hlk : List.lookup (j : Int) (((off, b)) :: rest) = List.lookup (j : Int) rest := by
        have : ((j : Int) == off) = false := by
          simpa using hoff
        simp [List.lookup, this]
      rw [hlk]

/-! ### C6, C8, C10: error handling of the tracker -/

/-- C6: `modifyBytes` with a position that is negative or not below the
buffer length returns the out-of-bounds error and leaves both the buffer
and the tracker record untouched. -/
theorem modifyBytes_out_of_bounds (o : offsetMemoryAddressing) (mem : List Nat)
    (offset : Int) (newValue : Nat)
    (h : offset < 0 ∨ (mem.length : Int) ≤ offset) :
    modifyBytes o mem offset newValue =
      (some (MemError.outOfBounds offset), o, mem) := by
  simp only [modifyBytes, if_pos h]

/-- Witness for C6 at a concrete out-of-bounds input. -/
theorem modifyBytes_out_of_bounds_witness :
    modifyBytes ⟨[]⟩ [10, 20, 30] 7 5 =
      (some (MemError.outOfBounds 7), ⟨[]⟩, [10, 20, 30]) :=
  modifyBytes_out_of_bounds ⟨[]⟩ [10, 20, 30] 7 5 (by decide)

/-- C8: `removeMemoryAddress` on a zero-length buffer returns the
empty-buffer error and leaves the tracker record unchanged, for every
tracker state. -/
theorem removeMemoryAddress_empty_buffer (o : offsetMemoryAddressing) :
    removeMemoryAddress o [] = (some MemError.emptyBuffer, o, []) := by
  simp [removeMemoryAddress]

/-- C10: whenever `removeMemoryAddress` returns an error (empty buffer
or out of bounds), the tracker record is exactly what it was before the
call — it is neither cleared nor shrunk. -/
theorem removeMemoryAddress_error_preserves_record (o : offsetMemoryAddressing)
    (mem : List Nat) (e : MemError)
    (h : (removeMemoryAddress o mem).1 = some e) :
    (removeMemoryAddress o mem).2.1 = o := by
  by_cases hm : mem.length = 0
  · simp [removeMemoryAddress, hm]
  · cases hr : restoreLoop o.offsets mem with
    | mk fst snd =>
      cases fst with
      | none => simp [removeMemoryAddress, hm, hr] at h
      | some e2 => simp [removeMemoryAddress, hm, hr]

/-- Witness for C10 at a concrete erroring input: a tracked offset that
is out of bounds for the supplied buffer. -/
theorem removeMemoryAddress_error_preserves_record_witness :
    (removeMemoryAddress ⟨[(5, 1)]⟩ [9]).2.1 = (⟨[(5, 1)]⟩ : offsetMemoryAddressing) :=
  removeMemoryAddress_error_preserves_record ⟨[(5, 1)]⟩ [9]
    (MemError.outOfBounds 5) (by decide)

/-! ### C7: iteration order over the record is irrelevant -/

theorem restoreLoop_snd_eq_of_perm (l1 l2 : List (Int × Nat)) (mem : List Nat)
    (hp : l1.Perm l2) (hnd : (l1.map Prod.fst).Nodup)
    (hb : ∀ e ∈ l1, 0 ≤ e.1 ∧ e.1 < (mem.length : Int)) :
    (restoreLoop l1 mem).2 = (restoreLoop l2 mem).2 := by
  have hnd2 : (l2.map Prod.fst).Nodup := ((hp.map Prod.fst).nodup_iff).mp hnd
  have hb2 : ∀ e ∈ l2, 0 ≤ e.1 ∧ e.1 < (mem.length : Int) :=
    fun e he => hb e (hp.mem_iff.mpr he)
  apply eq_of_length_getD
  · rw [restoreLoop_length, restoreLoop_length]
  · intro j hjl
    have hj : j < mem.length := by rwa [restoreLoop_length] at hjl
    rw [restoreLoop_getD l1 mem j hnd hb hj, restoreLoop_getD l2 mem j hnd2 hb2 hj,
      lookup_eq_of_perm l1 l2 (j : Int) hp hnd]

/-- C7: for a record of pairs with distinct in-bounds positions, the
buffer produced by `removeMemoryAddress` is the same no matter in which
order the recorded pairs are iterated. -/
theorem removeMemoryAddress_order_irrelevant (o1 o2 : offsetMemoryAddressing)
    (mem : List Nat) (hp : o1.offsets.Perm o2.offsets)
    (hnd : (o1.offsets.map Prod.fst).Nodup)
    (hb : ∀ e ∈ o1.offsets, 0 ≤ e.1 ∧ e.1 < (mem.length : Int)) :
    (removeMemoryAddress o1 mem).2.2 = (removeMemoryAddress o2 mem).2.2 := by
  by_cases hm : mem.length = 0
  · simp [removeMemoryAddress, hm]
  · have hb2 : ∀ e ∈ o2.offsets, 0 ≤ e.1 ∧ e.1 < (mem.length : Int) :=
      fun e he => hb e (hp.mem_iff.mpr he)
    have hs := restoreLoop_snd_eq_of_perm o1.offsets o2.offsets mem hp hnd hb
    have h1 := restoreLoop_fst_eq_none o1.offsets mem hb
    have h2 := restoreLoop_fst_eq_none o2.offsets mem hb2
    cases hr1 : restoreLoop o1.offsets mem with
    | mk f1 m1 =>
      cases hr2 : restoreLoop o2.offsets mem with
      | mk f2 m2 =>
        rw [hr1] at h1 hs
        rw [hr2] at h2 hs
        simp only at h1 h2 hs
        subst h1
        subst h2
        simp [removeMemoryAddress, hm, hr1, hr2, hs]

/-- Witness for C7: the same two-entry record in both orders yields the
same restored buffer. -/
theorem removeMemoryAddress_order_irrelevant_witness :
    (removeMemoryAddress ⟨[(0, 5), (2, 7)]⟩ [1, 2, 3]).2.2 =
      (removeMemoryAddress ⟨[(2, 7), (0, 5)]⟩ [1, 2, 3]).2.2 :=
  removeMemoryAddress_order_irrelevant ⟨[(0, 5), (2, 7)]⟩ ⟨[(2, 7), (0, 5)]⟩
    [1, 2, 3] (by decide) (by decide) (by decide)

/-! ### Successful `modifyBytes` calls decomposed -/

theorem modifyBytes_ok {o : offsetMemoryAddressing} {mem : List Nat} {off : Int}
    {v : Nat} {o2 : offsetMemoryAddressing} {mem2 : List Nat}
    (h : modifyBytes o mem off v = (none, o2, mem2)) :
    0 ≤ off ∧ off < (mem.length : Int) ∧ mem2 = mem.set off.toNat v ∧
      ((List.lookup off o.offsets).isSome ∧ o2 = o ∨
        List.lookup off o.offsets = none ∧
          o2.offsets = (off, mem.getD off.toNat 0) :: o.offsets) := by
  by_cases hbound : off < 0 ∨ (mem.length : Int) ≤ off
  · simp [modifyBytes, hbound] at h
  · push_neg at hbound
    have hb2 : ¬(off < 0 ∨ (mem.length : Int) ≤ off) := by omega
    by_cases hlk : (List.lookup off o.offsets).isSome
    · simp only [modifyBytes, if_neg hb2, if_pos hlk, Prod.mk.injEq, true_and] at h
      obtain ⟨h1, h2⟩ := h
      exact ⟨hbound.1, hbound.2, h2.symm, Or.inl ⟨hlk, h1.symm⟩⟩
    · have hnone : List.lookup off o.offsets = none :=
        Option.not_isSome_iff_eq_none.mp hlk
      simp only [modifyBytes, if_neg hb2, if_neg hlk, Prod.mk.injEq, true_and] at h
      obtain ⟨h1, h2⟩ := h
      exact ⟨hbound.1, hbound.2, h2.symm, Or.inr ⟨hnone, by rw [← h1]⟩⟩


/-! ### C9: offsets recorded by `modifyBytes` stay in bounds -/

/-- Trackers whose record was built only through successful `modifyBytes`
calls against buffers of length at most `L`, starting from the empty
record. -/
inductive BuiltBy (L : Nat) : offsetMemoryAddressing → Prop where
  | empty : BuiltBy L ⟨[]⟩
  | step {o : offsetMemoryAddressing} {mem : List Nat} {off : Int} {v : Nat}
      {o2 : offsetMemoryAddressing} {mem2 : List Nat} :
      BuiltBy L o → mem.length ≤ L →
      modifyBytes o mem off v = (none, o2, mem2) → BuiltBy L o2

theorem BuiltBy.bounds {L : Nat} {o : offsetMemoryAddressing} (h : BuiltBy L o) :
    ∀ e ∈ o.offsets, 0 ≤ e.1 ∧ e.1 < (L : Int) := by
  induction h with
  | empty =>
    intro e he
    simp at he
  | step hbuilt hlen hmod ih =>
    obtain ⟨h0, h1, hm2, hcase⟩ := modifyBytes_ok hmod
    rcases hcase with ⟨-, rfl⟩ | ⟨-, hoff⟩
    · exact ih
    · intro e he
      rw [hoff] at he
      rcases List.mem_cons.mp he with rfl | he2
      · refine ⟨h0, ?_⟩
        omega
      · exact ih e he2

/-- C9: every recorded offset was bounds-checked at insertion time, so a
tracker built only through `modifyBytes` against buffers of length at
most `L` restores successfully (no out-of-bounds branch, record cleared)
on any nonempty buffer of length at least `L`. -/
theorem builtBy_restore_succeeds (L : Nat) (o : offsetMemoryAddressing)
    (mem : List Nat) (hbuilt : BuiltBy L o) (hne : mem ≠ [])
    (hlen : L ≤ mem.length) :
    (removeMemoryAddress o mem).1 = none ∧
      (removeMemoryAddress o mem).2.1 = (⟨[]⟩ : offsetMemoryAddressing) := by
  have hb : ∀ e ∈ o.offsets, 0 ≤ e.1 ∧ e.1 < (mem.length : Int) := by
    intro e he
    have h1 := hbuilt.bounds e he
    have h2 : (L : Int) ≤ (mem.length : Int) := by exact_mod_cast hlen
    exact ⟨h1.1, lt_of_lt_of_le h1.2 h2⟩
  have hm : ¬ mem.length = 0 := by
    simpa [List.length_eq_zero] using hne
  have hf := restoreLoop_fst_eq_none o.offsets mem hb
  cases hr : restoreLoop o.offsets mem with
  | mk f m =>
    rw [hr] at hf
    simp only at hf
    subst hf
    simp [removeMemoryAddress, hm, hr]

/-- Witness for C9: a tracker built by one successful write against a
length-2 buffer restores successfully on a length-3 buffer. -/
theorem builtBy_restore_succeeds_witness :
    (removeMemoryAddress ⟨[(0, 1)]⟩ [3, 4, 5]).1 = none ∧
      (removeMemoryAddress ⟨[(0, 1)]⟩ [3, 4, 5]).2.1 =
        (⟨[]⟩ : offsetMemoryAddressing) :=
  builtBy_restore_succeeds 2 ⟨[(0, 1)]⟩ [3, 4, 5]
    (@BuiltBy.step 2 ⟨[]⟩ [1, 2] 0 9 ⟨[(0, 1)]⟩ [9, 2]
      BuiltBy.empty (by decide) (by decide))
    (by decide) (by decide)

/-! ### C1, C4: the tracker record as an exact undo log -/

/-- Relation between a tracker, the original buffer contents and the
current (modified) buffer: the record has distinct in-bounds keys, every
recorded value is the original byte at its offset, and every untracked
position still holds its original byte. -/
def Tracks (o : offsetMemoryAddressing) (orig cur : List Nat) : Prop :=
  cur.length = orig.length ∧
  (o.offsets.map Prod.fst).Nodup ∧
  (∀ e ∈ o.offsets, 0 ≤ e.1 ∧ e.1 < (orig.length : Int) ∧
    e.2 = orig.getD e.1.toNat 0) ∧
  ∀ j : Nat, j < orig.length → List.lookup (j : Int) o.offsets = none →
    cur.getD j 0 = orig.getD j 0

theorem tracks_empty (orig : List Nat) : Tracks ⟨[]⟩ orig orig := by
  refine ⟨rfl, by simp, by simp, ?_⟩
  intro j hj hl
  rfl

theorem tracks_modifyBytes {o : offsetMemoryAddressing} {orig cur : List Nat}
    {off : Int} {v : Nat} {o2 : offsetMemoryAddressing} {cur2 : List Nat}
    (ht : Tracks o orig cur) (h : modifyBytes o cur off v = (none, o2, cur2)) :
    Tracks o2 orig cur2 := by
  obtain ⟨hlen, hnd, hent, hlook⟩ := ht
  obtain ⟨h0, h1, hm2, hcase⟩ := modifyBytes_ok h
  rcases hcase with ⟨hsome, rfl⟩ | ⟨hnone, hoff⟩
  · refine ⟨?_, hnd, hent, ?_⟩
    · rw [hm2]; simpa using hlen
    · intro j hj hl
      have hne : off.toNat ≠ j := by
        intro he
        rw [show (j : Int) = off by omega] at hl
        rw [hl] at hsome
        simp at hsome
      rw [hm2, getD_set_ne _ _ _ _ hne]
      exact hlook j hj hl
  · have hcur : cur.getD off.toNat 0 = orig.getD off.toNat 0 := by
      apply hlook off.toNat (by omega)
      rw [show ((off.toNat : Nat) : Int) = off by omega]
      exact hnone
    have hkey : off ∉ o.offsets.map Prod.fst := by
      intro hmem
      obtain ⟨e, he, hfst⟩ := List.mem_map.mp hmem
      have := (lookup_eq_none_iff o.offsets off).mp hnone e.2
      apply this
      have : e = (off, e.2) := by
        cases e; cases hfst; rfl
      rwa [this] at he
    refine ⟨?_, ?_, ?_, ?_⟩
    · rw [hm2]; simpa using hlen
    · rw [hoff]
      simp only [List.map_cons, List.nodup_cons]
      exact ⟨hkey, hnd⟩
    · intro e he
      rw [hoff] at he
      rcases List.mem_cons.mp he with rfl | he2
      · refine ⟨h0, by omega, ?_⟩
        simp only
        exact hcur
      · exact hent e he2
    · intro j hj hl
      rw [hoff] at hl
      have hne : ((j : Int) == off) = false := by
        by_cases hjo : (j : Int) = off
        · exfalso
          simp [List.lookup, hjo] at hl
        · simpa using hjo
      simp only [List.lookup, hne] at hl
      have hnej : off.toNat ≠ j := by
        have : (j : Int) ≠ off := by simpa using hne
        omega
      rw [hm2, getD_set_ne _ _ _ _ hnej]
      exact hlook j hj hl

theorem tracks_runWrites (ops : List (Int × Nat)) {o : offsetMemoryAddressing}
    {orig cur : List Nat} {o2 : offsetMemoryAddressing} {cur2 : List Nat}
    (ht : Tracks o orig cur) (h : runWrites o cur ops = some (o2, cur2)) :
    Tracks o2 orig cur2 := by
  induction ops generalizing o cur with
  | nil =>
    simp only [runWrites, Option.some.injEq, Prod.mk.injEq] at h
    obtain ⟨rfl, rfl⟩ := h
    exact ht
  | cons op rest ih =>
    obtain ⟨off, v⟩ := op
    simp only [runWrites] at h
    cases hm : modifyBytes o cur off v with
    | mk f p =>
      obtain ⟨o3, cur3⟩ := p
      rw [hm] at h
      cases f with
      | none => exact ih (tracks_modifyBytes ht hm) h
      | some e => simp at h

theorem tracks_restore {o : offsetMemoryAddressing} {orig cur : List Nat}
    (ht : Tracks o orig cur) (hne : orig ≠ []) :
    removeMemoryAddress o cur = (none, ⟨[]⟩, orig) := by
  obtain ⟨hlen, hnd, hent, hlook⟩ := ht
  have hb : ∀ e ∈ o.offsets, 0 ≤ e.1 ∧ e.1 < (cur.length : Int) := by
    intro e he
    have := hent e he
    rw [hlen]
    exact ⟨this.1, this.2.1⟩
  have hm : ¬ cur.length = 0 := by
    rw [hlen]
    simpa [List.length_eq_zero] using hne
  have hf := restoreLoop_fst_eq_none o.offsets cur hb
  cases hr : restoreLoop o.offsets cur with
  | mk f m =>
    rw [hr] at hf
    simp only at hf
    subst hf
    have hmlen : m.length = orig.length := by
      have := restoreLoop_length o.offsets cur
      rw [hr] at this
      simp only at this
      rw [this, hlen]
    have hmorig : m = orig := by
      apply eq_of_length_getD _ _ hmlen
      intro j hj
      have hj2 : j < cur.length := by rw [hlen]; omega
      have hchar := restoreLoop_getD o.offsets cur j hnd hb hj2
      rw [hr] at hchar
      simp only at hchar
      cases hlk : List.lookup (j : Int) o.offsets with
      | none =>
        rw [hlk] at hchar
        simp only [Option.getD_none] at hchar
        rw [hchar]
        exact hlook j (by omega) hlk
      | some b =>
        rw [hlk] at hchar
        simp only [Option.getD_some] at hchar
        have hmem := mem_of_lookup_eq_some _ _ _ hlk
        have he := hent _ hmem
        simp only [Int.toNat_natCast] at he
        rw [hchar, he.2.2]
    simp [removeMemoryAddress, hm, hr, hmorig]

/-- C1 counterexample: on the empty buffer, the (vacuous) empty sequence
of successful tracked writes is followed by a restore that fails with
the empty-buffer error instead of succeeding. -/
theorem restore_after_writes_fails_on_empty_buffer :
    runWrites ⟨[]⟩ [] [] = some (⟨[]⟩, []) ∧
      (removeMemoryAddress ⟨[]⟩ []).1 = some MemError.emptyBuffer := by
  exact ⟨rfl, rfl⟩

/-- C1 (amended to nonempty buffers): after any sequence of successful
`modifyBytes` calls through a tracker starting with an empty record, on
a nonempty buffer, `removeMemoryAddress` succeeds, returns the buffer to
its exact pre-modification contents, and leaves the record empty. -/
theorem tracked_writes_then_restore_roundtrip (mem : List Nat)
    (ops : List (Int × Nat)) (o2 : offsetMemoryAddressing) (mem2 : List Nat)
    (hne : mem ≠ []) (h : runWrites ⟨[]⟩ mem ops = some (o2, mem2)) :
    removeMemoryAddress o2 mem2 = (none, ⟨[]⟩, mem) :=
  tracks_restore (tracks_runWrites ops (tracks_empty mem) h) hne

/-- Witness for C1 (amended), matching the spec's concrete scenario:
writes of 0x99 at position 1 and 0x77 at position 3 over
`[0x10, 0x20, 0x30, 0x40, 0x50]` are exactly undone. -/
theorem tracked_writes_then_restore_roundtrip_witness :
    removeMemoryAddress ⟨[(3, 64), (1, 32)]⟩ [16, 153, 48, 119, 80] =
      (none, ⟨[]⟩, [16, 32, 48, 64, 80]) :=
  tracked_writes_then_restore_roundtrip [16, 32, 48, 64, 80]
    [(1, 153), (3, 119)] ⟨[(3, 64), (1, 32)]⟩ [16, 153, 48, 119, 80]
    (by decide) (by decide)


/-- C4: writing the same position twice before a reset records only the
value present immediately before the first write, and restore then
places that first pre-write value back into the buffer, never the
intermediate value. -/
theorem first_write_value_retained (o : offsetMemoryAddressing) (mem : List Nat)
    (p : Int) (v1 v2 : Nat) (o1 : offsetMemoryAddressing) (mem1 : List Nat)
    (o2 : offsetMemoryAddressing) (mem2 : List Nat)
    (hnd : (o.offsets.map Prod.fst).Nodup)
    (hb : ∀ e ∈ o.offsets, 0 ≤ e.1 ∧ e.1 < (mem.length : Int))
    (hfresh : List.lookup p o.offsets = none)
    (h1 : modifyBytes o mem p v1 = (none, o1, mem1))
    (h2 : modifyBytes o1 mem1 p v2 = (none, o2, mem2)) :
    List.lookup p o2.offsets = some (mem.getD p.toNat 0) ∧
      (removeMemoryAddress o2 mem2).1 = none ∧
      (removeMemoryAddress o2 mem2).2.2.getD p.toNat 0 = mem.getD p.toNat 0 := by
  obtain ⟨hp0, hp1, hm1, hcase1⟩ := modifyBytes_ok h1
  rcases hcase1 with ⟨hsome, -⟩ | ⟨-, hoff1⟩
  · rw [hfresh] at hsome
    simp at hsome
  obtain ⟨-, -, hm2, hcase2⟩ := modifyBytes_ok h2
  have hlk1 : List.lookup p o1.offsets = some (mem.getD p.toNat 0) := by
    rw [hoff1]
    simp [List.lookup]
  rcases hcase2 with ⟨-, heq⟩ | ⟨hnone2, -⟩
  swap
  · rw [hlk1] at hnone2
    simp at hnone2
  subst heq
  have hnd2 : (o2.offsets.map Prod.fst).Nodup := by
    rw [hoff1]
    simp only [List.map_cons, List.nodup_cons]
    refine ⟨?_, hnd⟩
    intro hmem
    obtain ⟨e, he, hfst⟩ := List.mem_map.mp hmem
    apply (lookup_eq_none_iff o.offsets p).mp hfresh e.2
    have he2 : e = (p, e.2) := by
      cases e
      cases hfst
      rfl
    rwa [he2] at he
  have hlen2 : mem2.length = mem.length := by
    rw [hm2, hm1]
    simp
  have hb2 : ∀ e ∈ o2.offsets, 0 ≤ e.1 ∧ e.1 < (mem2.length : Int) := by
    rw [hoff1, hlen2]
    intro e he
    rcases List.mem_cons.mp he with rfl | he2
    · exact ⟨hp0, hp1⟩
    · exact hb e he2
  have hmlen : ¬ mem2.length = 0 := by
    rw [hlen2]
    omega
  have hf := restoreLoop_fst_eq_none o2.offsets mem2 hb2
  have hptn : p.toNat < mem2.length := by
    rw [hlen2]
    omega
  have hchar := restoreLoop_getD o2.offsets mem2 p.toNat hnd2 hb2 hptn
  have hcast : ((p.toNat : Nat) : Int) = p := by omega
  rw [hcast, hlk1] at hchar
  simp only [Option.getD_some] at hchar
  cases hr : restoreLoop o2.offsets mem2 with
  | mk f m =>
    rw [hr] at hf hchar
    simp only at hf hchar
    subst hf
    refine ⟨hlk1, ?_, ?_⟩
    · simp [removeMemoryAddress, hmlen, hr]
    · have hred : (removeMemoryAddress o2 mem2).2.2 = m := by
        simp [removeMemoryAddress, hmlen, hr]
      rw [hred]
      exact hchar

/-- Witness for C4: over buffer `[7, 8]`, writes of `1` then `2` at
position `0` record original value `7`, and restore puts `7` back. -/
theorem first_write_value_retained_witness :
    List.lookup 0 (⟨[(0, 7)]⟩ : offsetMemoryAddressing).offsets = some 7 ∧
      (removeMemoryAddress ⟨[(0, 7)]⟩ [2, 8]).1 = none ∧
      (removeMemoryAddress ⟨[(0, 7)]⟩ [2, 8]).2.2.getD 0 0 = 7 := by
  have h := first_write_value_retained ⟨[]⟩ [7, 8] 0 1 2 ⟨[(0, 7)]⟩ [1, 8]
    ⟨[(0, 7)]⟩ [2, 8] (by decide) (by decide) (by decide) (by decide) (by decide)
  simpa using h

/-! ### C3: the Fisher–Yates loop produces a permutation of the range -/

theorem count_set (l : List Nat) (i v x : Nat) (h : i < l.length) :
    (l.set i v).count x + (if l[i] = x then 1 else 0) =
      l.count x + (if v = x then 1 else 0) := by
  have hl : l.take i ++ l[i] :: l.drop (i + 1) = l := by
    rw [List.getElem_cons_drop]
    exact List.take_append_drop i l
  have hs : l.set i v = l.take i ++ v :: l.drop (i + 1) := by
    rw [List.set_eq_take_append_cons_drop, if_pos h]
  have hc : l.count x = (l.take i ++ l[i] :: l.drop (i + 1)).count x := by
    rw [hl]
  rw [hs, hc, List.count_append, List.count_append, List.count_cons, List.count_cons]
  simp only [beq_iff_eq]
  split_ifs <;> omega

theorem swapAt_perm (arr : List Nat) (i j : Nat) (hi : i < arr.length)
    (hj : j < arr.length) : (swapAt arr i j).Perm arr := by
  rw [List.perm_iff_count]
  intro x
  unfold swapAt
  rw [getD_eq_getElem arr j hj, getD_eq_getElem arr i hi]
  have hj1 : j < (arr.set i arr[j]).length := by simpa using hj
  have h1 := count_set arr i arr[j] x hi
  have h2 := count_set (arr.set i arr[j]) j arr[i] x hj1
  by_cases hij : i = j
  · subst hij
    rw [List.getElem_set_self] at h2
    split_ifs at h1 h2 <;> omega
  · rw [List.getElem_set_ne hij] at h2
    split_ifs at h1 h2 <;> omega

theorem fyLoop_perm (choice : Nat → Nat) (hc : ∀ i, choice i ≤ i) (k : Nat)
    (arr : List Nat) (hk : k + 1 ≤ arr.length) :
    (fyLoop choice k arr).Perm arr := by
  induction k generalizing arr with
  | zero => exact List.Perm.refl arr
  | succ k ih =>
    simp only [fyLoop]
    have hi : k + 1 < arr.length := hk
    have hj : choice (k + 1) < arr.length := lt_of_le_of_lt (hc (k + 1)) hi
    have hswap := swapAt_perm arr (k + 1) (choice (k + 1)) hi hj
    have hlen : (swapAt arr (k + 1) (choice (k + 1))).length = arr.length :=
      hswap.length_eq
    exact (ih _ (by omega)).trans hswap

/-- C3: for every `n` and every choice sequence with `choice i ≤ i`
(the range of `rand.Intn(i+1)`), the shuffle that initialises `0..n-1`
and swaps position `i` with position `choice i` for `i` from `n-1` down
to `1` yields a permutation of `[0, n)`; `n = 0` yields the empty
permutation. -/
theorem generatePermutation_perm_range (choice : Nat → Nat) (n : Nat)
    (hc : ∀ i, choice i ≤ i) :
    (generatePermutation choice n).Perm (List.range n) := by
  unfold generatePermutation
  cases n with
  | zero => simp [fyLoop]
  | succ m =>
    have hm : m + 1 - 1 = m := rfl
    rw [hm]
    exact fyLoop_perm choice hc m (List.range (m + 1)) (by simp)

/-- Witness for C3: with the always-zero choice sequence and `n = 4`,
the generated sequence is a permutation of `[0, 4)`. -/
theorem generatePermutation_perm_range_witness :
    (generatePermutation (fun _ => 0) 4).Perm (List.range 4) :=
  generatePermutation_perm_range (fun _ => 0) 4 (fun i => Nat.zero_le i)


/-! ### C2, C5: permutation application and inversion -/

/-- Generic form of the scramble/invert loops: for each index `i` in
`idxs` (in order), write `val i` at position `tgt i` of the buffer. -/
def writeLoop (tgt val : Nat → Nat) (idxs : List Nat) (out : List Nat) : List Nat :=
  idxs.foldl (fun acc i => acc.set (tgt i) (val i)) out

theorem applyPerm_eq_writeLoop (buf perm : List Nat) :
    applyPerm buf perm =
      writeLoop (fun i => perm.getD i 0) (fun i => buf.getD i 0)
        (List.range buf.length) (List.replicate buf.length 0) := rfl

theorem invertPerm_eq_writeLoop (perm : List Nat) :
    invertPerm perm =
      writeLoop (fun i => perm.getD i 0) (fun i => i)
        (List.range perm.length) (List.replicate perm.length 0) := rfl

theorem writeLoop_length (tgt val : Nat → Nat) (idxs : List Nat) (out : List Nat) :
    (writeLoop tgt val idxs out).length = out.length := by
  induction idxs generalizing out with
  | nil => rfl
  | cons i rest ih =>
    simp only [writeLoop, List.foldl_cons]
    rw [show (List.foldl (fun acc i => acc.set (tgt i) (val i)) (out.set (tgt i) (val i)) rest) = writeLoop tgt val rest (out.set (tgt i) (val i)) from rfl]
    rw [ih]
    simp

theorem writeLoop_getD_of_not_mem (tgt val : Nat → Nat) (idxs : List Nat)
    (out : List Nat) (j : Nat) (h : ∀ i ∈ idxs, tgt i ≠ j) :
    (writeLoop tgt val idxs out).getD j 0 = out.getD j 0 := by
  induction idxs generalizing out with
  | nil => rfl
  | cons i rest ih =>
    simp only [writeLoop, List.foldl_cons]
    rw [show (List.foldl (fun acc i => acc.set (tgt i) (val i)) (out.set (tgt i) (val i)) rest) = writeLoop tgt val rest (out.set (tgt i) (val i)) from rfl]
    rw [ih _ fun i2 hi2 => h i2 (List.mem_cons_of_mem _ hi2)]
    exact getD_set_ne _ _ _ _ (h i (List.mem_cons_self i rest))

theorem writeLoop_getD_of_unique (tgt val : Nat → Nat) (idxs : List Nat)
    (out : List Nat) (j i0 : Nat) (hj : j < out.length) (hm : i0 ∈ idxs)
    (ht : tgt i0 = j) (hu : ∀ i ∈ idxs, tgt i = j → i = i0) :
    (writeLoop tgt val idxs out).getD j 0 = val i0 := by
  induction idxs generalizing out with
  | nil => simp at hm
  | cons i rest ih =>
    simp only [writeLoop, List.foldl_cons]
    rw [show (List.foldl (fun acc i => acc.set (tgt i) (val i)) (out.set (tgt i) (val i)) rest) = writeLoop tgt val rest (out.set (tgt i) (val i)) from rfl]
    by_cases hcase : i0 ∈ rest
    · exact ih _ (by simpa using hj) hcase
        fun i2 hi2 hti2 => hu i2 (List.mem_cons_of_mem _ hi2) hti2
    · have hi0 : i0 = i := by
        rcases List.mem_cons.mp hm with h | h
        · exact h
        · exact absurd h hcase
      have hrest : ∀ i2 ∈ rest, tgt i2 ≠ j := by
        intro i2 hi2 hti2
        exact hcase ((hu i2 (List.mem_cons_of_mem _ hi2) hti2) ▸ hi2)
      rw [writeLoop_getD_of_not_mem _ _ _ _ _ hrest]
      subst hi0
      rw [ht]
      exact getD_set_self out j (val i0) hj

theorem perm_range_length (P : List Nat) (n : Nat)
    (hP : P.Perm (List.range n)) : P.length = n := by
  simpa using hP.length_eq

theorem perm_range_getD_lt (P : List Nat) (n : Nat) (hP : P.Perm (List.range n))
    (i : Nat) (hi : i < n) : P.getD i 0 < n := by
  have hlen := perm_range_length P n hP
  have hmem : P.getD i 0 ∈ P := by
    rw [getD_eq_getElem P i (by omega)]
    exact List.getElem_mem _
  have := hP.mem_iff.mp hmem
  simpa using this

theorem perm_range_getD_inj (P : List Nat) (n : Nat) (hP : P.Perm (List.range n))
    {i1 i2 : Nat} (h1 : i1 < n) (h2 : i2 < n)
    (he : P.getD i1 0 = P.getD i2 0) : i1 = i2 := by
  have hlen := perm_range_length P n hP
  have hnd : P.Nodup := (hP.nodup_iff).mpr (List.nodup_range n)
  rw [getD_eq_getElem P i1 (by omega), getD_eq_getElem P i2 (by omega)] at he
  exact hnd.getElem_inj_iff.mp he

theorem perm_range_surj (P : List Nat) (n : Nat) (hP : P.Perm (List.range n))
    (j : Nat) (hj : j < n) : ∃ i, i < n ∧ P.getD i 0 = j := by
  have hlen := perm_range_length P n hP
  have hjP : j ∈ P := hP.mem_iff.mpr (by simpa using hj)
  obtain ⟨i, hi, he⟩ := List.getElem_of_mem hjP
  exact ⟨i, by omega, by rw [getD_eq_getElem P i hi]; exact he⟩

theorem applyPerm_length (buf perm : List Nat) :
    (applyPerm buf perm).length = buf.length := by
  rw [applyPerm_eq_writeLoop, writeLoop_length]
  simp

theorem invertPerm_length (perm : List Nat) :
    (invertPerm perm).length = perm.length := by
  rw [invertPerm_eq_writeLoop, writeLoop_length]
  simp

theorem applyPerm_getD (buf perm : List Nat)
    (hP : perm.Perm (List.range buf.length)) (i : Nat) (hi : i < buf.length) :
    (applyPerm buf perm).getD (perm.getD i 0) 0 = buf.getD i 0 := by
  rw [applyPerm_eq_writeLoop]
  apply writeLoop_getD_of_unique
  · simpa using perm_range_getD_lt _ _ hP i hi
  · simpa using hi
  · rfl
  · intro i2 hi2 hti2
    exact perm_range_getD_inj _ _ hP (by simpa using hi2) hi hti2

theorem invertPerm_getD (perm : List Nat) (n : Nat)
    (hP : perm.Perm (List.range n)) (i : Nat) (hi : i < n) :
    (invertPerm perm).getD (perm.getD i 0) 0 = i := by
  have hlen := perm_range_length perm n hP
  rw [invertPerm_eq_writeLoop]
  apply writeLoop_getD_of_unique
  · simpa [hlen] using perm_range_getD_lt _ _ hP i hi
  · simp only [List.mem_range, hlen]
    omega
  · rfl
  · intro i2 hi2 hti2
    simp only [List.mem_range, hlen] at hi2
    exact perm_range_getD_inj _ _ hP hi2 hi hti2

theorem invertPerm_getD_lt (perm : List Nat) (n : Nat)
    (hP : perm.Perm (List.range n)) (q : Nat) (hq : q < n) :
    (invertPerm perm).getD q 0 < n := by
  obtain ⟨i, hi, he⟩ := perm_range_surj perm n hP q hq
  rw [← he, invertPerm_getD perm n hP i hi]
  exact hi

theorem invertPerm_inj (perm : List Nat) (n : Nat)
    (hP : perm.Perm (List.range n)) {q1 q2 : Nat} (h1 : q1 < n) (h2 : q2 < n)
    (he : (invertPerm perm).getD q1 0 = (invertPerm perm).getD q2 0) :
    q1 = q2 := by
  obtain ⟨i1, hi1, he1⟩ := perm_range_surj perm n hP q1 h1
  obtain ⟨i2, hi2, he2⟩ := perm_range_surj perm n hP q2 h2
  rw [← he1, ← he2, invertPerm_getD perm n hP i1 hi1,
    invertPerm_getD perm n hP i2 hi2] at he
  subst he
  rw [← he1, ← he2]

theorem invertPerm_perm_range (perm : List Nat) (n : Nat)
    (hP : perm.Perm (List.range n)) :
    (invertPerm perm).Perm (List.range n) := by
  have hlen : (invertPerm perm).length = n := by
    rw [invertPerm_length, perm_range_length perm n hP]
  have hnd : (invertPerm perm).Nodup := by
    rw [List.nodup_iff_injective_get]
    intro a b hab
    have ha := a.isLt
    have hb := b.isLt
    apply Fin.ext
    apply invertPerm_inj perm n hP (by omega) (by omega)
    rw [getD_eq_getElem _ _ (by omega), getD_eq_getElem _ _ (by omega)]
    simpa [List.get_eq_getElem] using hab
  have hsub : invertPerm perm ⊆ List.range n := by
    intro x hx
    obtain ⟨q, hq, he⟩ := List.getElem_of_mem hx
    rw [← he, ← getD_eq_getElem _ _ hq]
    have := invertPerm_getD_lt perm n hP q (by omega)
    simpa using this
  exact (hnd.subperm hsub).perm_of_length_le (by simp [hlen])

/-- C2: for a buffer `B` and a permutation `P` of `[0, B.length)`,
scrambling `B` along `P` and then scrambling the result along the
inverse of `P` reproduces `B` exactly. -/
theorem apply_invert_roundtrip (B P : List Nat)
    (hP : P.Perm (List.range B.length)) :
    applyPerm (applyPerm B P) (invertPerm P) = B := by
  have hA : (applyPerm B P).length = B.length := applyPerm_length B P
  apply eq_of_length_getD
  · rw [applyPerm_length, hA]
  · intro q hq
    rw [applyPerm_length, hA] at hq
    rw [applyPerm_eq_writeLoop]
    have hi0 : P.getD q 0 < B.length := perm_range_getD_lt _ _ hP q hq
    have happly := writeLoop_getD_of_unique
      (fun i => (invertPerm P).getD i 0)
      (fun i => (applyPerm B P).getD i 0)
      (List.range (applyPerm B P).length)
      (List.replicate (applyPerm B P).length 0) q (P.getD q 0)
      (by simpa [hA] using hq)
      (by simp only [List.mem_range, hA]; exact hi0)
      (invertPerm_getD P B.length hP q hq)
      (by
        intro i2 hi2 hti2
        simp only [List.mem_range, hA] at hi2
        rw [← invertPerm_getD P B.length hP q hq] at hti2
        exact invertPerm_inj P B.length hP hi2 hi0 hti2)
    exact happly.trans (applyPerm_getD B P hP q hq)

/-- Witness for C2 at `B = [10, 20, 30, 40]`, `P = [2, 0, 3, 1]`. -/
theorem apply_invert_roundtrip_witness :
    applyPerm (applyPerm [10, 20, 30, 40] [2, 0, 3, 1])
      (invertPerm [2, 0, 3, 1]) = [10, 20, 30, 40] :=
  apply_invert_roundtrip [10, 20, 30, 40] [2, 0, 3, 1] (by decide)

theorem getD_map (l : List Nat) (f : Nat → Nat) (q : Nat) (hq : q < l.length) :
    (l.map f).getD q 0 = f (l.getD q 0) := by
  rw [getD_eq_getElem _ _ (by simpa using hq), getD_eq_getElem _ _ hq,
    List.getElem_map]

theorem map_getD_range (l : List Nat) :
    (List.range l.length).map (fun j => l.getD j 0) = l := by
  apply List.ext_getElem
  · simp
  · intro q h1 h2
    simp only [List.getElem_map, List.getElem_range]
    exact getD_eq_getElem l q h2

/-- C5: scrambling relocates values without altering them — the output
is a permutation (as a multiset) of the input — and the list of target
positions written by the loop is itself a permutation of `[0, N)`, so
every output position is written exactly once and no position is left
unwritten. -/
theorem applyPerm_rearranges (B P : List Nat)
    (hP : P.Perm (List.range B.length)) :
    (applyPerm B P).Perm B ∧
      ((List.range B.length).map (fun i => P.getD i 0)).Perm
        (List.range B.length) := by
  have hn := perm_range_length P B.length hP
  constructor
  · have hPiperm := invertPerm_perm_range P B.length hP
    have hmap : applyPerm B P = (invertPerm P).map (fun j => B.getD j 0) := by
      apply eq_of_length_getD
      · rw [applyPerm_length, List.length_map, invertPerm_length, hn]
      · intro q hq
        rw [applyPerm_length] at hq
        obtain ⟨i0, hi0, he0⟩ := perm_range_surj P B.length hP q hq
        have h1 : (applyPerm B P).getD q 0 = B.getD i0 0 := by
          rw [← he0]
          exact applyPerm_getD B P hP i0 hi0
        have h2 : (invertPerm P).getD q 0 = i0 := by
          rw [← he0]
          exact invertPerm_getD P B.length hP i0 hi0
        rw [h1, getD_map _ _ q (by rw [invertPerm_length, hn]; exact hq), h2]
    rw [hmap]
    have hm2 := hPiperm.map (fun j => B.getD j 0)
    rwa [map_getD_range B] at hm2
  · have hPT : (List.range B.length).map (fun i => P.getD i 0) = P := by
      apply eq_of_length_getD
      · simp [hn]
      · intro q hq
        simp only [List.length_map, List.length_range] at hq
        rw [getD_map _ _ q (by simpa using hq)]
        have hr : (List.range B.length).getD q 0 = q := by
          rw [getD_eq_getElem _ _ (by simpa using hq)]
          simp
        rw [hr]
    rw [hPT]
    exact hP

/-- Witness for C5 at `B = [10, 20, 30, 40]`, `P = [2, 0, 3, 1]`. -/
theorem applyPerm_rearranges_witness :
    (applyPerm [10, 20, 30, 40] [2, 0, 3, 1]).Perm [10, 20, 30, 40] ∧
      ((List.range 4).map (fun i => ([2, 0, 3, 1] : List Nat).getD i 0)).Perm
        (List.range 4) :=
  applyPerm_rearranges [10, 20, 30, 40] [2, 0, 3, 1] (by decide)

end MemRemap
